import Mathlib

/-!
Verification development for the estimation orchestrator of the
lattice-estimator repository (src/estimator/lwe.py and src/estimator/sis.py).

The two source files are shallowly embedded here.  Python dictionaries are
modelled as association lists over `String` keys with Python's insertion-order
semantics (`dInsert` updates in place or appends, `dDel` fails on a missing
key, iteration follows list order).  Attack callables (partial applications
of the external attack-cost procedures) are modelled as `Attack` records
carrying the stable identity string returned by `f_name` and the outcome of
evaluating the callable on the (fixed, per-call) parameter set: `some record`
when the callable returns a cost record, `none` when it raises.

The collaborators `batch_estimate` and `f_name` live in util.py, which is not
part of the embedded sources; they are modelled from the specification and
marked as such in their doc comments.
-/

/-- The extended non-negative cost value `rop`: either a finite value or the
infinity sentinel `oo` meaning infeasible/unestimated. -/
inductive Rop where
  | fin : ℚ → Rop
  | inf : Rop
deriving DecidableEq

/-- The strict comparison used by the dominance filter
(`res[...]["rop"] < v["rop"]`), with the usual extended-real ordering of the
`oo` sentinel. -/
def Rop.lt : Rop → Rop → Bool
  | Rop.fin a, Rop.fin b => decide (a < b)
  | Rop.fin _, Rop.inf => true
  | Rop.inf, _ => false

/-- A cost record.  The mandatory `rop` entry is modelled explicitly; the
remaining metric entries (memory, blocksize, tag, ...) do not influence the
orchestrator and are collapsed into an opaque payload `data` that keeps
distinct records distinguishable. -/
structure CostRecord where
  rop : Rop
  data : ℕ := 0
deriving DecidableEq

/-- A bound attack callable: `fname` is the stable identity string that
`f_name` extracts from it, and `eval` is the outcome of invoking it on the
parameter set of the current call (`none` when the invocation raises). -/
structure Attack where
  fname : String
  eval : Option CostRecord
deriving DecidableEq

/-- A Python `dict` with `String` keys, as an insertion-ordered association
list. -/
abbrev Dict (α : Type) : Type := List (String × α)

/-- Python `d[k]` as a total lookup: the value at the first matching key. -/
def dGet? {α : Type} : Dict α → String → Option α
  | [], _ => none
  | kv :: rest, k => if kv.1 = k then some kv.2 else dGet? rest k

/-- Python `d[k] = v`: replace the value in place when the key is present,
otherwise append the pair at the end. -/
def dInsert {α : Type} : Dict α → String → α → Dict α
  | [], k, v => [(k, v)]
  | kv :: rest, k, v => if kv.1 = k then (k, v) :: rest else kv :: dInsert rest k v

/-- Python `del d[k]`: `none` models the `KeyError` raised on a missing key. -/
def dDel {α : Type} : Dict α → String → Option (Dict α)
  | [], _ => none
  | kv :: rest, k =>
    if kv.1 = k then some rest
    else
      match dDel rest k with
      | none => none
      | some d => some (kv :: d)

/-- The keys of a dict, in iteration order. -/
def dKeys {α : Type} (d : Dict α) : List String := d.map (fun kv => kv.1)

/-- The values of a dict, in iteration order (`d.values()`). -/
def dValues {α : Type} (d : Dict α) : List α := d.map (fun kv => kv.2)

/-- Python `k in d`. -/
def dHasKey {α : Type} (d : Dict α) (k : String) : Bool := decide (k ∈ dKeys d)

/-- Modelled from the spec: `f_name` from util.py (not in src/) is "an
identity-extraction utility mapping a bound callable to a stable string"; it
returns the canonical identity string of the bound callable. -/
def f_name (a : Attack) : String := a.fname

/-- Accumulating loop of `batch_estimate`: run each callable once, record the
outcome under the callable's identity string, and on an internal failure
either omit the entry (failures caught) or abort the whole batch. -/
def batchAux (catch_exceptions : Bool) (raw : Dict CostRecord) :
    List Attack → Except Unit (Dict CostRecord)
  | [] => Except.ok raw
  | a :: rest =>
    match a.eval with
    | some c => batchAux catch_exceptions (dInsert raw (f_name a) c) rest
    | none =>
      if catch_exceptions then batchAux catch_exceptions raw rest
      else Except.error ()

/-- Modelled from the spec: `batch_estimate` from util.py (not in src/).
Per the spec it invokes each callable exactly once and returns a mapping from
each callable's stable identity string to its cost record; a failure is
recorded as an omission when failures are caught and aborts the batch
otherwise; the job count permits parallelism but "must not change results —
only wall-clock time", so the result does not depend on `jobs`.  LWE callers
have no catch switch and failures are always caught at this layer. -/
def batch_estimate (attacks : List Attack) (jobs : ℕ) (catch_exceptions : Bool) :
    Except Unit (Dict CostRecord) :=
  batchAux catch_exceptions [] attacks

/-- The ParameterSet queries the rough/LWE catalog construction consults:
dimension `n`, sample count `m`, secret sparsity and error boundedness. -/
structure LWEParams where
  n : ℕ
  m : ℕ
  xs_is_sparse : Bool
  xe_is_bounded : Bool

/-- The externally supplied bound callables used by `Estimate.rough` in
lwe.py: each field stands for one of the `partial(...)` values the source
builds (uSVP, primal hybrid, the two dual-hybrid bindings, and `arora_gb`
either plain or wrapped in `guess_composition`). -/
structure LWERoughEnv where
  usvp : Attack
  hybrid : Attack
  dual_mitm_hybrid : Attack
  dual_hybrid : Attack
  arora_gb_guess : Attack
  arora_gb_plain : Attack

/-- The catalog built by `Estimate.rough` (lwe.py lines 50-72). -/
def lweRoughCatalog (env : LWERoughEnv) (params : LWEParams) : Dict Attack :=
  let algorithms : Dict Attack := []
  let algorithms := dInsert algorithms "usvp" env.usvp
  let algorithms :=
    if params.xs_is_sparse then dInsert algorithms "hybrid" env.hybrid else algorithms
  let algorithms :=
    if params.xs_is_sparse then dInsert algorithms "dual_mitm_hybrid" env.dual_mitm_hybrid
    else dInsert algorithms "dual_hybrid" env.dual_hybrid
  let algorithms :=
    if decide (params.m > params.n ^ 2) && params.xe_is_bounded then
      (if params.xs_is_sparse then dInsert algorithms "arora-gb" env.arora_gb_guess
       else dInsert algorithms "arora-gb" env.arora_gb_plain)
    else algorithms
  algorithms

/-- The externally supplied bound callables used by `Estimate.__call__` in
lwe.py (lines 136-160), one field per catalog entry the source constructs. -/
structure LWEFullEnv where
  arora_gb_guess : Attack
  coded_bkw : Attack
  primal_usvp : Attack
  primal_bdd : Attack
  primal_bdd_hybrid : Attack
  primal_bdd_mitm_hybrid : Attack
  dual : Attack
  dual_hybrid : Attack
  dual_mitm_hybrid : Attack

/-- The default catalog built by `Estimate.__call__` (lwe.py lines 134-160). -/
def lweFullCatalog (env : LWEFullEnv) : Dict Attack :=
  let algorithms : Dict Attack := []
  let algorithms := dInsert algorithms "arora-gb" env.arora_gb_guess
  let algorithms := dInsert algorithms "bkw" env.coded_bkw
  let algorithms := dInsert algorithms "usvp" env.primal_usvp
  let algorithms := dInsert algorithms "bdd" env.primal_bdd
  let algorithms := dInsert algorithms "bdd_hybrid" env.primal_bdd_hybrid
  let algorithms := dInsert algorithms "bdd_mitm_hybrid" env.primal_bdd_mitm_hybrid
  let algorithms := dInsert algorithms "dual" env.dual
  let algorithms := dInsert algorithms "dual_hybrid" env.dual_hybrid
  let algorithms := dInsert algorithms "dual_mitm_hybrid" env.dual_mitm_hybrid
  algorithms

/-- The catalog built by both SIS entry points (sis.py lines 43-46 and
106-110): a single lattice-attack entry. -/
def sisFullCatalog (lattice : Attack) : Dict Attack :=
  let algorithms : Dict Attack := []
  let algorithms := dInsert algorithms "lattice" lattice
  algorithms

/-- The LWE deny-list loop (lwe.py lines 162-163): `del algorithms[k]` for
each listed name, where a missing name raises `KeyError` (`none`). -/
def applyDenyLWE (d : Dict Attack) : List String → Option (Dict Attack)
  | [] => some d
  | k :: rest =>
    match dDel d k with
    | none => none
    | some d2 => applyDenyLWE d2 rest

/-- The SIS deny-list comprehension (sis.py line 112): keep the entries whose
name is not listed; absent names are silently ignored. -/
def applyDenySIS (d : Dict Attack) (deny_list : List String) : Dict Attack :=
  d.filter (fun kv => decide (kv.1 ∉ deny_list))

/-- The add-list merge (lwe.py lines 164-165, sis.py line 113):
`algorithms[k] = v` for each pair, overriding or extending the catalog. -/
def applyAdd (d : Dict Attack) (add_list : List (String × Attack)) : Dict Attack :=
  add_list.foldl (fun acc kv => dInsert acc kv.1 kv.2) d

/-- Inner loop of result assembly: for one catalog name, scan the raw batch
output and store every value whose key equals the entry's identity string
(`if f_name(...) == k: res[algorithm] = v`); a later match overwrites an
earlier one. -/
def assembleMatchRaw (res : Dict CostRecord) (algorithm : String) (fname1 : String)
    (res_raw : Dict CostRecord) : Dict CostRecord :=
  res_raw.foldl (fun res kv => if fname1 = kv.1 then dInsert res algorithm kv.2 else res) res

/-- LWE result assembly (lwe.py lines 169-173 and 76-80): nested loops over
the catalog names and the raw results, looking the attack up by name again
for each comparison. -/
def assembleLWE (algorithms : Dict Attack) (res_raw : Dict CostRecord) : Dict CostRecord :=
  (dKeys algorithms).foldl
    (fun res algorithm =>
      match dGet? algorithms algorithm with
      | some attack => assembleMatchRaw res algorithm (f_name attack) res_raw
      | none => res)
    []

/-- SIS result assembly (sis.py lines 52-56 and 119-124): a dict
comprehension over the catalog items and the raw results. -/
def assembleSIS (algorithms : Dict Attack) (res_raw : Dict CostRecord) : Dict CostRecord :=
  algorithms.foldl
    (fun res kv => assembleMatchRaw res kv.1 (f_name kv.2) res_raw)
    []

/-- One candidate line of the full/LWE reporting loop (lwe.py lines 178-184)
for a matched entry `(k, v)`: skip on infinite `rop`; skip when the entry is
named `hybrid` and `res["bdd"]` is strictly cheaper, or named
`dual_mitm_hybrid` and `res["dual_hybrid"]` is strictly cheaper — where the
sibling lookup is unguarded and raises `KeyError` (`Except.error`) when the
sibling is absent; otherwise print the line. -/
def lweReportLine (res : Dict CostRecord) (k : String) (v : CostRecord) :
    Except Unit (Option (String × CostRecord)) :=
  if v.rop = Rop.inf then Except.ok none
  else if k = "hybrid" then
    match dGet? res "bdd" with
    | none => Except.error ()
    | some b => Except.ok (if Rop.lt b.rop v.rop then none else some (k, v))
  else if k = "dual_mitm_hybrid" then
    match dGet? res "dual_hybrid" with
    | none => Except.error ()
    | some b => Except.ok (if Rop.lt b.rop v.rop then none else some (k, v))
  else Except.ok (some (k, v))

/-- Inner loop of the full/LWE reporting pass: scan the assembled mapping for
items whose key equals the current catalog name. -/
def lweReportInner (res : Dict CostRecord) (algorithm : String) :
    List (String × CostRecord) → Except Unit (List (String × CostRecord))
  | [] => Except.ok []
  | kv :: rest =>
    if algorithm = kv.1 then
      match lweReportLine res kv.1 kv.2 with
      | Except.error e => Except.error e
      | Except.ok line =>
        match lweReportInner res algorithm rest with
        | Except.error e => Except.error e
        | Except.ok tail => Except.ok (line.toList ++ tail)
    else lweReportInner res algorithm rest

/-- Outer loop of the full/LWE reporting pass (lwe.py lines 175-184), over
the catalog names in order; returns the printed lines as (name, record)
pairs, or the `KeyError` the dominance lookups can raise. -/
def lweReportAll (res : Dict CostRecord) : List String → Except Unit (List (String × CostRecord))
  | [] => Except.ok []
  | algorithm :: rest =>
    match lweReportInner res algorithm res with
    | Except.error e => Except.error e
    | Except.ok l1 =>
      match lweReportAll res rest with
      | Except.error e => Except.error e
      | Except.ok l2 => Except.ok (l1 ++ l2)

/-- The rough/LWE reporting loop (lwe.py lines 82-87): nested loops over the
catalog names and the assembled items, printing every matched entry whose
`rop` is not `oo`; no dominance checks. -/
def lweRoughReport (res : Dict CostRecord) (names : List String) :
    List (String × CostRecord) :=
  names.foldr
    (fun algorithm acc =>
      (res.filterMap
        (fun kv =>
          if algorithm = kv.1 then
            (if kv.2.rop = Rop.inf then none else some (algorithm, kv.2))
          else none)) ++ acc)
    []

/-- The SIS reporting loop (sis.py lines 58-63 and 125-131): for each catalog
name present in the assembled mapping, print it unless its `rop` is `oo`. -/
def sisReport (res : Dict CostRecord) (names : List String) :
    List (String × CostRecord) :=
  names.filterMap
    (fun algorithm =>
      match dGet? res algorithm with
      | none => none
      | some result => if result.rop = Rop.inf then none else some (algorithm, result))

/-- `lwe.Estimate.rough` (lwe.py lines 17-88): build the rough catalog, run
the batch (failures always caught at this layer), assemble, print the rough
report, and return the assembled mapping. -/
def lweRough (env : LWERoughEnv) (params : LWEParams) (jobs : ℕ) :
    Except Unit (Dict CostRecord × List (String × CostRecord)) :=
  let algorithms := lweRoughCatalog env params
  match batch_estimate (dValues algorithms) jobs true with
  | Except.error e => Except.error e
  | Except.ok res_raw =>
    let res := assembleLWE algorithms res_raw
    Except.ok (res, lweRoughReport res (dKeys algorithms))

/-- `lwe.Estimate.__call__` (lwe.py lines 90-185): build the default catalog,
apply the deny- and add-lists, run the batch (failures always caught at this
layer), assemble, run the dominance-filtered reporting loop, and return the
assembled mapping together with the printed lines; a `KeyError` from the
deny-list or from the reporting loop aborts the call. -/
def lweCall (env : LWEFullEnv) (deny_list : List String)
    (add_list : List (String × Attack)) (jobs : ℕ) :
    Except Unit (Dict CostRecord × List (String × CostRecord)) :=
  match applyDenyLWE (lweFullCatalog env) deny_list with
  | none => Except.error ()
  | some alg1 =>
    let algorithms := applyAdd alg1 add_list
    match batch_estimate (dValues algorithms) jobs true with
    | Except.error e => Except.error e
    | Except.ok res_raw =>
      let res := assembleLWE algorithms res_raw
      match lweReportAll res (dKeys algorithms) with
      | Except.error e => Except.error e
      | Except.ok lines => Except.ok (res, lines)

/-- The mapping produced by full/LWE result assembly before the
dominance/reporting loop runs (lwe.py state after line 173). -/
def lweAssembled (env : LWEFullEnv) (deny_list : List String)
    (add_list : List (String × Attack)) (jobs : ℕ) : Option (Dict CostRecord) :=
  match applyDenyLWE (lweFullCatalog env) deny_list with
  | none => none
  | some alg1 =>
    let algorithms := applyAdd alg1 add_list
    match batch_estimate (dValues algorithms) jobs true with
    | Except.error _ => none
    | Except.ok res_raw => some (assembleLWE algorithms res_raw)

/-- `sis.Estimate.rough` (sis.py lines 19-65): single-entry catalog, batch
with a caller-controlled catch flag, assemble, report, return. -/
def sisRough (lattice : Attack) (jobs : ℕ) (catch_exceptions : Bool) :
    Except Unit (Dict CostRecord × List (String × CostRecord)) :=
  let algorithms := sisFullCatalog lattice
  match batch_estimate (dValues algorithms) jobs catch_exceptions with
  | Except.error e => Except.error e
  | Except.ok res_raw =>
    let res := assembleSIS algorithms res_raw
    Except.ok (res, sisReport res (dKeys algorithms))

/-- `sis.Estimate.__call__` (sis.py lines 67-133): build the catalog, filter
it by the deny-list (absent names silently ignored), merge the add-list, run
the batch with the caller's catch flag, assemble, report, return. -/
def sisCall (lattice : Attack) (deny_list : List String)
    (add_list : List (String × Attack)) (jobs : ℕ) (catch_exceptions : Bool) :
    Except Unit (Dict CostRecord × List (String × CostRecord)) :=
  let algorithms0 := sisFullCatalog lattice
  let algorithms1 := applyDenySIS algorithms0 deny_list
  let algorithms := applyAdd algorithms1 add_list
  match batch_estimate (dValues algorithms) jobs catch_exceptions with
  | Except.error e => Except.error e
  | Except.ok res_raw =>
    let res := assembleSIS algorithms res_raw
    Except.ok (res, sisReport res (dKeys algorithms))

/-- Whether a call returned normally rather than raising. -/
def isOkE {α : Type} : Except Unit α → Bool
  | Except.ok _ => true
  | Except.error _ => false

/-- A finite cost record with value `q` and empty payload. -/
def cR (q : ℚ) : CostRecord := { rop := Rop.fin q, data := 0 }

/-- The infeasible cost record (`rop` = `oo`). -/
def cInf : CostRecord := { rop := Rop.inf, data := 0 }

/-- A succeeding attack callable with identity string `s` and finite cost `q`. -/
def att (s : String) (q : ℚ) : Attack := { fname := s, eval := some (cR q) }

/-- An attack callable whose evaluation succeeds with an infeasible result. -/
def attInf : Attack := { fname := "attInf_f", eval := some cInf }

/-- An attack callable whose evaluation raises. -/
def attNone : Attack := { fname := "attNone_f", eval := none }

/-- A minimal full/LWE environment: every callable fails except uSVP, which
returns an infeasible result. -/
def envMin : LWEFullEnv :=
  { arora_gb_guess := attNone, coded_bkw := attNone, primal_usvp := attInf,
    primal_bdd := attNone, primal_bdd_hybrid := attNone,
    primal_bdd_mitm_hybrid := attNone, dual := attNone,
    dual_hybrid := attNone, dual_mitm_hybrid := attNone }

/-- The keys of a cons cell. -/
theorem dKeys_cons {α : Type} (kv : String × α) (rest : Dict α) :
    dKeys (kv :: rest) = kv.1 :: dKeys rest := rfl

/-- Lookup after an insert at the same key. -/
theorem dGet?_dInsert_self {α : Type} (d : Dict α) (k : String) (v : α) :
    dGet? (dInsert d k v) k = some v := by
  induction d with
  | nil => simp [dInsert, dGet?]
  | cons kv rest ih =>
    by_cases h : kv.1 = k
    · simp [dInsert, dGet?, h]
    · simp [dInsert, dGet?, h, ih]

/-- Inserting a fresh key appends the pair. -/
theorem dInsert_eq_append {α : Type} (d : Dict α) (k : String) (v : α)
    (h : k ∉ dKeys d) : dInsert d k v = d ++ [(k, v)] := by
  induction d with
  | nil => simp [dInsert]
  | cons kv rest ih =>
    rw [dKeys_cons, List.mem_cons] at h
    push_neg at h
    have h1 : ¬ kv.1 = k := fun hh => h.1 hh.symm
    simp [dInsert, h1, ih h.2]

/-- Lookup skips a prefix that does not contain the key. -/
theorem dGet?_append_right {α : Type} (d1 d2 : Dict α) (k : String)
    (h : k ∉ dKeys d1) : dGet? (d1 ++ d2) k = dGet? d2 k := by
  induction d1 with
  | nil => simp
  | cons kv rest ih =>
    rw [dKeys_cons, List.mem_cons] at h
    push_neg at h
    have h1 : ¬ kv.1 = k := fun hh => h.1 hh.symm
    simp only [List.cons_append, dGet?, h1, if_false]
    exact ih h.2

/-- The keys after an insert: unchanged when the key is present, extended at
the end when it is fresh. -/
theorem dKeys_dInsert {α : Type} (d : Dict α) (k : String) (v : α) :
    dKeys (dInsert d k v) = if k ∈ dKeys d then dKeys d else dKeys d ++ [k] := by
  induction d with
  | nil => simp [dInsert, dKeys]
  | cons kv rest ih =>
    by_cases h : kv.1 = k
    · subst h
      simp [dInsert, dKeys_cons]
    · have h2 : ¬ k = kv.1 := fun hh => h hh.symm
      have hstep : dInsert (kv :: rest) k v = kv :: dInsert rest k v := by
        simp [dInsert, h]
      rw [hstep, dKeys_cons, dKeys_cons, ih]
      by_cases hm : k ∈ dKeys rest
      · rw [if_pos hm, if_pos (by rw [List.mem_cons]; exact Or.inr hm)]
      · rw [if_neg hm, if_neg (by rw [List.mem_cons]; rintro (hh | hh); exact h2 hh; exact hm hh)]
        simp

/-- Inserting preserves the no-duplicate-keys invariant. -/
theorem nodup_dInsert {α : Type} (d : Dict α) (k : String) (v : α)
    (h : (dKeys d).Nodup) : (dKeys (dInsert d k v)).Nodup := by
  rw [dKeys_dInsert]
  by_cases hm : k ∈ dKeys d
  · simpa [hm] using h
  · rw [if_neg hm]
    refine List.Nodup.append h (List.nodup_singleton k) ?_
    intro x hx hxx
    rw [List.mem_singleton] at hxx
    exact hm (hxx ▸ hx)

/-- A successful delete implies the key was present. -/
theorem dDel_hasKey {α : Type} (d : Dict α) (k : String) (d2 : Dict α)
    (h : dDel d k = some d2) : k ∈ dKeys d := by
  induction d generalizing d2 with
  | nil => simp [dDel] at h
  | cons kv rest ih =>
    rw [dKeys_cons, List.mem_cons]
    by_cases hk : kv.1 = k
    · exact Or.inl hk.symm
    · simp only [dDel, hk, if_false] at h
      cases hd : dDel rest k with
      | none => rw [hd] at h; simp at h
      | some d3 => exact Or.inr (ih d3 hd)

/-- Deleting never introduces keys. -/
theorem dDel_keys_subset {α : Type} (d : Dict α) (k : String) (d2 : Dict α)
    (h : dDel d k = some d2) : ∀ x, x ∈ dKeys d2 → x ∈ dKeys d := by
  induction d generalizing d2 with
  | nil => simp [dDel] at h
  | cons kv rest ih =>
    by_cases hk : kv.1 = k
    · simp only [dDel, hk, if_true, Option.some_inj] at h
      subst h
      intro x hx
      rw [dKeys_cons, List.mem_cons]
      exact Or.inr hx
    · simp only [dDel, hk, if_false] at h
      cases hd : dDel rest k with
      | none => rw [hd] at h; simp at h
      | some d3 =>
        rw [hd, Option.some_inj] at h
        subst h
        intro x hx
        rw [dKeys_cons, List.mem_cons] at hx ⊢
        rcases hx with hx | hx
        · exact Or.inl hx
        · exact Or.inr (ih d3 hd x hx)

/-- With no duplicate keys, deleting a key removes it. -/
theorem dDel_not_key {α : Type} (d : Dict α) (k : String) (d2 : Dict α)
    (hnd : (dKeys d).Nodup) (h : dDel d k = some d2) : k ∉ dKeys d2 := by
  induction d generalizing d2 with
  | nil => simp [dDel] at h
  | cons kv rest ih =>
    rw [dKeys_cons, List.nodup_cons] at hnd
    by_cases hk : kv.1 = k
    · simp only [dDel, hk, if_true, Option.some_inj] at h
      subst h
      subst hk
      exact hnd.1
    · simp only [dDel, hk, if_false] at h
      cases hd : dDel rest k with
      | none => rw [hd] at h; simp at h
      | some d3 =>
        rw [hd, Option.some_inj] at h
        subst h
        rw [dKeys_cons, List.mem_cons]
        rintro (hx | hx)
        · exact hk hx.symm
        · exact ih d3 hnd.2 hd hx

/-- A present key can always be deleted. -/
theorem dDel_isSome_of_hasKey {α : Type} (d : Dict α) (k : String)
    (h : k ∈ dKeys d) : dDel d k ≠ none := by
  induction d with
  | nil => simp [dKeys] at h
  | cons kv rest ih =>
    by_cases hk : kv.1 = k
    · simp [dDel, hk]
    · rw [dKeys_cons, List.mem_cons] at h
      rcases h with h | h
      · exact absurd h.symm hk
      · simp only [dDel, hk, if_false]
        cases hd : dDel rest k with
        | none => exact absurd hd (ih h)
        | some d3 => simp

/-- Unfolding equation for one batch step. -/
theorem batchAux_cons (ce : Bool) (raw : Dict CostRecord) (a : Attack) (rest : List Attack) :
    batchAux ce raw (a :: rest) =
      match a.eval with
      | some c => batchAux ce (dInsert raw (f_name a) c) rest
      | none => if ce then batchAux ce raw rest else Except.error () := rfl

/-- A successful batch over an appended list factors through the first part. -/
theorem batchAux_ok_append (ce : Bool) (as bs : List Attack) :
    ∀ (raw r : Dict CostRecord), batchAux ce raw (as ++ bs) = Except.ok r →
    ∃ r1, batchAux ce raw as = Except.ok r1 ∧ batchAux ce r1 bs = Except.ok r := by
  induction as with
  | nil => intro raw r h; exact ⟨raw, rfl, h⟩
  | cons a rest ih =>
    intro raw r h
    rw [List.cons_append] at h
    cases he : a.eval with
    | some c =>
      simp only [batchAux_cons, he] at h ⊢
      exact ih _ r h
    | none =>
      simp only [batchAux_cons, he] at h ⊢
      cases ce with
      | false => simp at h
      | true =>
        simp only [if_true] at h ⊢
        exact ih _ r h

/-- A successful batch preserves the no-duplicate-keys invariant of the raw
result mapping. -/
theorem batchAux_ok_nodup (ce : Bool) (as : List Attack) :
    ∀ (raw r : Dict CostRecord), (dKeys raw).Nodup → batchAux ce raw as = Except.ok r →
    (dKeys r).Nodup := by
  induction as with
  | nil =>
    intro raw r hn h
    simp only [batchAux, Except.ok.injEq] at h
    subst h
    exact hn
  | cons a rest ih =>
    intro raw r hn h
    cases he : a.eval with
    | some c =>
      simp only [batchAux_cons, he] at h
      exact ih _ r (nodup_dInsert _ _ _ hn) h
    | none =>
      simp only [batchAux_cons, he] at h
      cases ce with
      | false => simp at h
      | true =>
        simp only [if_true] at h
        exact ih _ r hn h

/-- With failures caught, the batch always returns normally. -/
theorem batchAux_true_ok (as : List Attack) :
    ∀ raw, ∃ r, batchAux true raw as = Except.ok r := by
  induction as with
  | nil => intro raw; exact ⟨raw, rfl⟩
  | cons a rest ih =>
    intro raw
    cases he : a.eval with
    | some c =>
      simp only [batchAux_cons, he]
      exact ih (dInsert raw (f_name a) c)
    | none =>
      simp only [batchAux_cons, he, if_true]
      exact ih raw

/-- Unfolding equation for one step of the assembly inner loop. -/
theorem assembleMatchRaw_cons (res : Dict CostRecord) (a fn : String)
    (kv : String × CostRecord) (rest : Dict CostRecord) :
    assembleMatchRaw res a fn (kv :: rest) =
      assembleMatchRaw (if fn = kv.1 then dInsert res a kv.2 else res) a fn rest := rfl

/-- The assembly inner loop is the identity when no raw key matches. -/
theorem assembleMatchRaw_no_match (a fn : String) (raw : Dict CostRecord)
    (h : fn ∉ dKeys raw) : ∀ res, assembleMatchRaw res a fn raw = res := by
  induction raw with
  | nil => intro res; rfl
  | cons kv rest ih =>
    intro res
    rw [dKeys_cons, List.mem_cons] at h
    push_neg at h
    rw [assembleMatchRaw_cons, if_neg h.1]
    exact ih h.2 res

/-- When the raw mapping has no duplicate keys and holds `c` under the
identity string `fn`, the assembly inner loop stores `c` under the catalog
name. -/
theorem assembleMatchRaw_get (a fn : String) (c : CostRecord) (raw : Dict CostRecord) :
    ∀ res, (dKeys raw).Nodup → dGet? raw fn = some c →
    dGet? (assembleMatchRaw res a fn raw) a = some c := by
  induction raw with
  | nil => intro res hn hg; simp [dGet?] at hg
  | cons kv rest ih =>
    intro res hn hg
    rw [dKeys_cons, List.nodup_cons] at hn
    by_cases h : kv.1 = fn
    · simp only [dGet?, h, if_pos] at hg
      rw [Option.some_inj] at hg
      have hout : fn ∉ dKeys rest := by rw [← h]; exact hn.1
      rw [assembleMatchRaw_cons, if_pos h.symm,
        assembleMatchRaw_no_match a fn rest hout, hg]
      exact dGet?_dInsert_self res a c
    · simp only [dGet?, h, if_false] at hg
      rw [assembleMatchRaw_cons, if_neg (fun hh => h hh.symm)]
      exact ih res hn.2 hg

/-- The assembly inner loop preserves the no-duplicate-keys invariant. -/
theorem assembleMatchRaw_nodup (a fn : String) (raw : Dict CostRecord) :
    ∀ res, (dKeys res).Nodup → (dKeys (assembleMatchRaw res a fn raw)).Nodup := by
  induction raw with
  | nil => intro res h; exact h
  | cons kv rest ih =>
    intro res h
    rw [assembleMatchRaw_cons]
    by_cases hk : fn = kv.1
    · rw [if_pos hk]; exact ih _ (nodup_dInsert _ _ _ h)
    · rw [if_neg hk]; exact ih _ h

/-- The LWE-assembled mapping has no duplicate keys. -/
theorem assembleLWE_nodup (alg : Dict Attack) (raw : Dict CostRecord) :
    (dKeys (assembleLWE alg raw)).Nodup := by
  suffices hgen : ∀ (names : List String) (acc : Dict CostRecord), (dKeys acc).Nodup →
      (dKeys (names.foldl
        (fun res algorithm =>
          match dGet? alg algorithm with
          | some attack => assembleMatchRaw res algorithm (f_name attack) raw
          | none => res) acc)).Nodup by
    exact hgen (dKeys alg) [] List.nodup_nil
  intro names
  induction names with
  | nil => intro acc h; exact h
  | cons a rest ih =>
    intro acc h
    rw [List.foldl_cons]
    cases hg : dGet? alg a with
    | some attack => exact ih _ (assembleMatchRaw_nodup _ _ _ _ h)
    | none => exact ih _ h

/-- The SIS-assembled mapping has no duplicate keys. -/
theorem assembleSIS_nodup (alg : Dict Attack) (raw : Dict CostRecord) :
    (dKeys (assembleSIS alg raw)).Nodup := by
  suffices hgen : ∀ (l : Dict Attack) (acc : Dict CostRecord), (dKeys acc).Nodup →
      (dKeys (l.foldl
        (fun res kv => assembleMatchRaw res kv.1 (f_name kv.2) raw) acc)).Nodup by
    exact hgen alg [] List.nodup_nil
  intro l
  induction l with
  | nil => intro acc h; exact h
  | cons kv rest ih =>
    intro acc h
    rw [List.foldl_cons]
    exact ih _ (assembleMatchRaw_nodup _ _ _ _ h)

/-- In a dict with no duplicate keys, membership determines lookup. -/
theorem dGet?_eq_of_mem_nodup {α : Type} (d : Dict α) (kv : String × α)
    (hnd : (dKeys d).Nodup) (h : kv ∈ d) : dGet? d kv.1 = some kv.2 := by
  induction d with
  | nil => simp at h
  | cons a rest ih =>
    rw [dKeys_cons, List.nodup_cons] at hnd
    rcases List.mem_cons.mp h with h | h
    · subst h; simp [dGet?]
    · have hmem : kv.1 ∈ dKeys rest := List.mem_map_of_mem (fun x => x.1) h
      have hne : ¬ a.1 = kv.1 := fun hh => hnd.1 (by rw [hh]; exact hmem)
      simp only [dGet?, hne, if_false]
      exact ih hnd.2 h

/-- A printed line of the full/LWE report: it is the matched entry itself,
its `rop` is finite, and a `dual_mitm_hybrid` line implies the dominance
lookup found `dual_hybrid` and the skip comparison was false. -/
theorem lweReportLine_some (res : Dict CostRecord) (k : String) (v : CostRecord)
    (x : String × CostRecord) (h : lweReportLine res k v = Except.ok (some x)) :
    x = (k, v) ∧ v.rop ≠ Rop.inf ∧
      (k = "dual_mitm_hybrid" →
        ∃ b, dGet? res "dual_hybrid" = some b ∧ Rop.lt b.rop v.rop = false) := by
  by_cases hinf : v.rop = Rop.inf
  · rw [lweReportLine, if_pos hinf] at h
    simp at h
  · rw [lweReportLine, if_neg hinf] at h
    by_cases hk1 : k = "hybrid"
    · rw [if_pos hk1] at h
      cases hb : dGet? res "bdd" with
      | none => simp only [hb] at h; simp at h
      | some b =>
        simp only [hb] at h
        by_cases hlt : Rop.lt b.rop v.rop = true
        · rw [if_pos hlt] at h; simp at h
        · rw [if_neg hlt] at h
          simp only [Except.ok.injEq, Option.some_inj] at h
          subst h
          refine ⟨rfl, hinf, fun hk2 => absurd (hk1 ▸ hk2 : ("hybrid" : String) = "dual_mitm_hybrid") (by decide)⟩
    · rw [if_neg hk1] at h
      by_cases hk2 : k = "dual_mitm_hybrid"
      · rw [if_pos hk2] at h
        cases hb : dGet? res "dual_hybrid" with
        | none => simp only [hb] at h; simp at h
        | some b =>
          simp only [hb] at h
          by_cases hlt : Rop.lt b.rop v.rop = true
          · rw [if_pos hlt] at h; simp at h
          · rw [if_neg hlt] at h
            simp only [Except.ok.injEq, Option.some_inj] at h
            subst h
            exact ⟨rfl, hinf, fun _ => ⟨b, rfl, Bool.eq_false_iff.mpr hlt⟩⟩
      · rw [if_neg hk2] at h
        simp only [Except.ok.injEq, Option.some_inj] at h
        subst h
        exact ⟨rfl, hinf, fun hdk => absurd hdk hk2⟩

/-- Every line the full/LWE inner reporting loop emits comes from the scanned
list, has finite `rop`, and satisfies the `dual_mitm_hybrid` dominance
condition. -/
theorem lweReportInner_mem (res : Dict CostRecord) (a : String) :
    ∀ (l lines : List (String × CostRecord)), lweReportInner res a l = Except.ok lines →
    ∀ x ∈ lines, x ∈ l ∧ x.2.rop ≠ Rop.inf ∧
      (x.1 = "dual_mitm_hybrid" →
        ∃ b, dGet? res "dual_hybrid" = some b ∧ Rop.lt b.rop x.2.rop = false) := by
  intro l
  induction l with
  | nil =>
    intro lines h x hx
    simp only [lweReportInner, Except.ok.injEq] at h
    subst h
    simp at hx
  | cons kv rest ih =>
    intro lines h x hx
    simp only [lweReportInner] at h
    by_cases hak : a = kv.1
    · rw [if_pos hak] at h
      cases hline : lweReportLine res kv.1 kv.2 with
      | error e => simp only [hline] at h; simp at h
      | ok line =>
        simp only [hline] at h
        cases htail : lweReportInner res a rest with
        | error e => simp only [htail] at h; simp at h
        | ok tail =>
          simp only [htail] at h
          simp only [Except.ok.injEq] at h
          subst h
          rw [List.mem_append] at hx
          rcases hx with hx | hx
          · cases line with
            | none => simp at hx
            | some y =>
              simp only [Option.toList_some, List.mem_singleton] at hx
              subst hx
              obtain ⟨hxy, hrop, hdual⟩ := lweReportLine_some res kv.1 kv.2 _ hline
              rw [hxy]
              refine ⟨?_, hrop, hdual⟩
              rw [Prod.mk.eta]
              exact List.mem_cons_self kv rest
          · obtain ⟨hmem, h2, h3⟩ := ih tail htail x hx
            exact ⟨List.mem_cons_of_mem kv hmem, h2, h3⟩
    · rw [if_neg hak] at h
      obtain ⟨hmem, h2, h3⟩ := ih lines h x hx
      exact ⟨List.mem_cons_of_mem kv hmem, h2, h3⟩

/-- Every line the full/LWE reporting pass emits is an entry of the assembled
mapping with finite `rop`, and a `dual_mitm_hybrid` line implies the
dominance lookup found `dual_hybrid` and did not trigger the skip. -/
theorem lweReportAll_mem (res : Dict CostRecord) :
    ∀ (names : List String) (lines : List (String × CostRecord)),
    lweReportAll res names = Except.ok lines →
    ∀ x ∈ lines, x ∈ res ∧ x.2.rop ≠ Rop.inf ∧
      (x.1 = "dual_mitm_hybrid" →
        ∃ b, dGet? res "dual_hybrid" = some b ∧ Rop.lt b.rop x.2.rop = false) := by
  intro names
  induction names with
  | nil =>
    intro lines h x hx
    simp only [lweReportAll, Except.ok.injEq] at h
    subst h
    simp at hx
  | cons a rest ih =>
    intro lines h x hx
    simp only [lweReportAll] at h
    cases h1 : lweReportInner res a res with
    | error e => simp only [h1] at h; simp at h
    | ok l1 =>
      simp only [h1] at h
      cases h2 : lweReportAll res rest with
      | error e => simp only [h2] at h; simp at h
      | ok l2 =>
        simp only [h2] at h
        simp only [Except.ok.injEq] at h
        subst h
        rw [List.mem_append] at hx
        rcases hx with hx | hx
        · exact lweReportInner_mem res a res l1 h1 x hx
        · exact ih l2 h2 x hx

/-- Every line of a SIS report is looked up from the assembled mapping and
has finite `rop`. -/
theorem sisReport_mem (res : Dict CostRecord) (names : List String)
    (x : String × CostRecord) (hx : x ∈ sisReport res names) :
    dGet? res x.1 = some x.2 ∧ x.2.rop ≠ Rop.inf := by
  simp only [sisReport] at hx
  rw [List.mem_filterMap] at hx
  obtain ⟨a, _, hf⟩ := hx
  cases hg : dGet? res a with
  | none => simp only [hg] at hf; simp at hf
  | some r =>
    simp only [hg] at hf
    by_cases hinf : r.rop = Rop.inf
    · rw [if_pos hinf] at hf; simp at hf
    · rw [if_neg hinf] at hf
      rw [Option.some_inj] at hf
      subst hf
      exact ⟨hg, hinf⟩

/-- Every line of a rough/LWE report is an entry of the assembled mapping
with finite `rop`. -/
theorem lweRoughReport_mem (res : Dict CostRecord) :
    ∀ (names : List String) (x : String × CostRecord), x ∈ lweRoughReport res names →
    x ∈ res ∧ x.2.rop ≠ Rop.inf := by
  intro names
  induction names with
  | nil => intro x hx; simp [lweRoughReport] at hx
  | cons a rest ih =>
    intro x hx
    have hsplit : lweRoughReport res (a :: rest) =
        (res.filterMap
          (fun kv =>
            if a = kv.1 then
              (if kv.2.rop = Rop.inf then none else some (a, kv.2))
            else none)) ++ lweRoughReport res rest := rfl
    rw [hsplit, List.mem_append] at hx
    rcases hx with hx | hx
    · rw [List.mem_filterMap] at hx
      obtain ⟨kv, hkv, hf⟩ := hx
      by_cases hak : a = kv.1
      · rw [if_pos hak] at hf
        by_cases hinf : kv.2.rop = Rop.inf
        · rw [if_pos hinf] at hf; simp at hf
        · rw [if_neg hinf] at hf
          rw [Option.some_inj] at hf
          subst hf
          refine ⟨?_, hinf⟩
          rw [hak, Prod.mk.eta]
          exact hkv
      · rw [if_neg hak] at hf; simp at hf
    · exact ih x hx

/-- Inversion for a normally-returning full/LWE call: the deny-list
succeeded, the batch succeeded, the returned mapping is exactly the assembled
mapping, and the printed lines came from the reporting pass over it. -/
theorem lweCall_ok_inv (env : LWEFullEnv) (deny_list : List String)
    (add_list : List (String × Attack)) (jobs : ℕ) (res : Dict CostRecord)
    (lines : List (String × CostRecord))
    (h : lweCall env deny_list add_list jobs = Except.ok (res, lines)) :
    ∃ alg1 raw, applyDenyLWE (lweFullCatalog env) deny_list = some alg1 ∧
      batch_estimate (dValues (applyAdd alg1 add_list)) jobs true = Except.ok raw ∧
      res = assembleLWE (applyAdd alg1 add_list) raw ∧
      lweReportAll res (dKeys (applyAdd alg1 add_list)) = Except.ok lines := by
  simp only [lweCall] at h
  cases hd : applyDenyLWE (lweFullCatalog env) deny_list with
  | none => simp only [hd] at h; simp at h
  | some alg1 =>
    simp only [hd] at h
    cases hb : batch_estimate (dValues (applyAdd alg1 add_list)) jobs true with
    | error e => simp only [hb] at h; simp at h
    | ok raw =>
      simp only [hb] at h
      cases hr : lweReportAll (assembleLWE (applyAdd alg1 add_list) raw)
          (dKeys (applyAdd alg1 add_list)) with
      | error e => simp only [hr] at h; simp at h
      | ok lines2 =>
        simp only [hr, Except.ok.injEq, Prod.mk.injEq] at h
        obtain ⟨h1, h2⟩ := h
        subst h1
        subst h2
        exact ⟨alg1, raw, rfl, hb, rfl, hr⟩

/-- Inversion for a normally-returning full/SIS call. -/
theorem sisCall_ok_inv (lattice : Attack) (deny_list : List String)
    (add_list : List (String × Attack)) (jobs : ℕ) (catch_exceptions : Bool)
    (res : Dict CostRecord) (lines : List (String × CostRecord))
    (h : sisCall lattice deny_list add_list jobs catch_exceptions = Except.ok (res, lines)) :
    ∃ raw, batch_estimate
        (dValues (applyAdd (applyDenySIS (sisFullCatalog lattice) deny_list) add_list))
        jobs catch_exceptions = Except.ok raw ∧
      res = assembleSIS (applyAdd (applyDenySIS (sisFullCatalog lattice) deny_list) add_list) raw ∧
      lines = sisReport res
        (dKeys (applyAdd (applyDenySIS (sisFullCatalog lattice) deny_list) add_list)) := by
  simp only [sisCall] at h
  cases hb : batch_estimate
      (dValues (applyAdd (applyDenySIS (sisFullCatalog lattice) deny_list) add_list))
      jobs catch_exceptions with
  | error e => simp only [hb] at h; simp at h
  | ok raw =>
    simp only [hb, Except.ok.injEq, Prod.mk.injEq] at h
    obtain ⟨h1, h2⟩ := h
    subst h1
    subst h2
    exact ⟨raw, rfl, rfl, rfl⟩

/-- Inversion for a normally-returning rough/LWE call. -/
theorem lweRough_ok_inv (env : LWERoughEnv) (params : LWEParams) (jobs : ℕ)
    (res : Dict CostRecord) (lines : List (String × CostRecord))
    (h : lweRough env params jobs = Except.ok (res, lines)) :
    ∃ raw, batch_estimate (dValues (lweRoughCatalog env params)) jobs true = Except.ok raw ∧
      res = assembleLWE (lweRoughCatalog env params) raw ∧
      lines = lweRoughReport res (dKeys (lweRoughCatalog env params)) := by
  simp only [lweRough] at h
  cases hb : batch_estimate (dValues (lweRoughCatalog env params)) jobs true with
  | error e => simp only [hb] at h; simp at h
  | ok raw =>
    simp only [hb, Except.ok.injEq, Prod.mk.injEq] at h
    obtain ⟨h1, h2⟩ := h
    subst h1
    subst h2
    exact ⟨raw, rfl, rfl, rfl⟩

/-- Inversion for a normally-returning rough/SIS call. -/
theorem sisRough_ok_inv (lattice : Attack) (jobs : ℕ) (catch_exceptions : Bool)
    (res : Dict CostRecord) (lines : List (String × CostRecord))
    (h : sisRough lattice jobs catch_exceptions = Except.ok (res, lines)) :
    ∃ raw, batch_estimate (dValues (sisFullCatalog lattice)) jobs catch_exceptions
        = Except.ok raw ∧
      res = assembleSIS (sisFullCatalog lattice) raw ∧
      lines = sisReport res (dKeys (sisFullCatalog lattice)) := by
  simp only [sisRough] at h
  cases hb : batch_estimate (dValues (sisFullCatalog lattice)) jobs catch_exceptions with
  | error e => simp only [hb] at h; simp at h
  | ok raw =>
    simp only [hb, Except.ok.injEq, Prod.mk.injEq] at h
    obtain ⟨h1, h2⟩ := h
    subst h1
    subst h2
    exact ⟨raw, rfl, rfl, rfl⟩

/-- When every catalog pair is recovered by name lookup, the LWE fold over
the names with re-lookup coincides with the SIS fold over the pairs. -/
theorem assemble_fold_eq (algAll : Dict Attack) (raw : Dict CostRecord) :
    ∀ (alg : Dict Attack), (∀ kv ∈ alg, dGet? algAll kv.1 = some kv.2) →
    ∀ (acc : Dict CostRecord),
    (dKeys alg).foldl
      (fun res algorithm =>
        match dGet? algAll algorithm with
        | some attack => assembleMatchRaw res algorithm (f_name attack) raw
        | none => res) acc
    = alg.foldl (fun res kv => assembleMatchRaw res kv.1 (f_name kv.2) raw) acc := by
  intro alg
  induction alg with
  | nil => intro hmem acc; rfl
  | cons kv rest ih =>
    intro hmem acc
    rw [dKeys_cons, List.foldl_cons, List.foldl_cons]
    have hkv : dGet? algAll kv.1 = some kv.2 := hmem kv (List.mem_cons_self kv rest)
    rw [hkv]
    exact ih (fun x hx => hmem x (List.mem_cons_of_mem kv hx)) _

/-- A deny-list containing a name absent from the dict makes the LWE
deny-loop raise (`del` of a missing key), no matter where in the list the
absent name sits. -/
theorem applyDenyLWE_absent (deny_list : List String) :
    ∀ (d : Dict Attack), (∃ x, x ∈ deny_list ∧ x ∉ dKeys d) →
    applyDenyLWE d deny_list = none := by
  induction deny_list with
  | nil =>
    intro d h
    obtain ⟨x, hx, _⟩ := h
    simp at hx
  | cons k rest ih =>
    intro d h
    obtain ⟨x, hx, habs⟩ := h
    cases hd : dDel d k with
    | none => simp [applyDenyLWE, hd]
    | some d2 =>
      simp only [applyDenyLWE, hd]
      have hxk : x ≠ k := by
        intro he
        subst he
        exact habs (dDel_hasKey d x d2 hd)
      have hx2 : x ∈ rest := by
        rcases List.mem_cons.mp hx with h1 | h1
        · exact absurd h1 hxk
        · exact h1
      refine ih d2 ⟨x, hx2, ?_⟩
      intro hmem
      exact habs (dDel_keys_subset d k d2 hd x hmem)

/-- The SIS deny comprehension removes every listed name that was present. -/
theorem applyDenySIS_not_key (d : Dict Attack) (deny_list : List String) (X : String)
    (hX : X ∈ deny_list) : X ∉ dKeys (applyDenySIS d deny_list) := by
  intro hmem
  rw [dKeys, List.mem_map] at hmem
  obtain ⟨kv, hkv, hfst⟩ := hmem
  rw [applyDenySIS, List.mem_filter] at hkv
  exact (of_decide_eq_true hkv.2) (by rw [hfst]; exact hX)

/-- The names of the default full/LWE catalog, in declaration order. -/
theorem dKeys_lweFullCatalog (env : LWEFullEnv) :
    dKeys (lweFullCatalog env) =
      ["arora-gb", "bkw", "usvp", "bdd", "bdd_hybrid", "bdd_mitm_hybrid",
       "dual", "dual_hybrid", "dual_mitm_hybrid"] := rfl

/-- A singleton add-list is one dict assignment. -/
theorem applyAdd_single (d : Dict Attack) (k : String) (v : Attack) :
    applyAdd d [(k, v)] = dInsert d k v := rfl

/-- Assigning a fresh name yields exactly one entry under that name, bound to
the assigned value. -/
theorem applyAdd_single_keys (d : Dict Attack) (X : String) (f : Attack)
    (hX : X ∉ dKeys d) :
    (dKeys (applyAdd d [(X, f)])).count X = 1 ∧ dGet? (applyAdd d [(X, f)]) X = some f := by
  rw [applyAdd_single, dInsert_eq_append d X f hX]
  constructor
  · have hkeys : dKeys (d ++ [(X, f)]) = dKeys d ++ [X] := by simp [dKeys]
    rw [hkeys, List.count_append, List.count_eq_zero.mpr hX]
    simp
  · rw [dGet?_append_right d _ X hX]
    simp [dGet?]

/-- When a catalog ends with a fresh entry `(X, f)` whose identity string
holds `c` in a duplicate-free raw mapping, both assembly procedures store `c`
under `X`. -/
theorem assemble_append_get (alg1 : Dict Attack) (X : String) (f : Attack)
    (c : CostRecord) (raw : Dict CostRecord) (hX1 : X ∉ dKeys alg1)
    (hnd : (dKeys raw).Nodup) (hg : dGet? raw (f_name f) = some c) :
    dGet? (assembleLWE (alg1 ++ [(X, f)]) raw) X = some c ∧
    dGet? (assembleSIS (alg1 ++ [(X, f)]) raw) X = some c := by
  constructor
  · unfold assembleLWE
    have hkeys : dKeys (alg1 ++ [(X, f)]) = dKeys alg1 ++ [X] := by simp [dKeys]
    rw [hkeys, List.foldl_append, List.foldl_cons, List.foldl_nil]
    have hget : dGet? (alg1 ++ [(X, f)]) X = some f := by
      rw [dGet?_append_right _ _ _ hX1]
      simp [dGet?]
    simp only [hget]
    exact assembleMatchRaw_get X (f_name f) c raw _ hnd hg
  · unfold assembleSIS
    rw [List.foldl_append, List.foldl_cons, List.foldl_nil]
    exact assembleMatchRaw_get X (f_name f) c raw _ hnd hg

/-- A successful batch over a value list ending in a succeeding callable
holds that callable's record under its identity string, in a duplicate-free
raw mapping. -/
theorem batch_last_get (vs : List Attack) (f : Attack) (c : CostRecord)
    (jobs : ℕ) (ce : Bool) (raw : Dict CostRecord) (hf : f.eval = some c)
    (hb : batch_estimate (vs ++ [f]) jobs ce = Except.ok raw) :
    dGet? raw (f_name f) = some c ∧ (dKeys raw).Nodup := by
  rw [batch_estimate] at hb
  obtain ⟨r1, h1, h2⟩ := batchAux_ok_append ce vs [f] [] raw hb
  rw [batchAux_cons, hf] at h2
  simp only [batchAux, Except.ok.injEq] at h2
  subst h2
  refine ⟨dGet?_dInsert_self r1 (f_name f) c, ?_⟩
  exact nodup_dInsert _ _ _ (batchAux_ok_nodup ce vs [] r1 List.nodup_nil h1)

/-- Claim C5: for every ParameterSet, the rough/LWE catalog always contains
`usvp`; it contains `hybrid` and `dual_mitm_hybrid` exactly when the secret
is sparse and `dual_hybrid` exactly when it is not; and it contains
`arora-gb` exactly when the sample count strictly exceeds the square of the
dimension and the error distribution is bounded, bound to the
guess-composed variant iff the secret is sparse. -/
theorem claim_C5_thm (env : LWERoughEnv) (params : LWEParams) :
    dHasKey (lweRoughCatalog env params) "usvp" = true ∧
    dHasKey (lweRoughCatalog env params) "hybrid" = params.xs_is_sparse ∧
    dHasKey (lweRoughCatalog env params) "dual_mitm_hybrid" = params.xs_is_sparse ∧
    dHasKey (lweRoughCatalog env params) "dual_hybrid" = !params.xs_is_sparse ∧
    dGet? (lweRoughCatalog env params) "arora-gb" =
      (if decide (params.m > params.n ^ 2) && params.xe_is_bounded then
        some (if params.xs_is_sparse then env.arora_gb_guess else env.arora_gb_plain)
      else none) := by
  cases hnm : decide (params.m > params.n ^ 2) <;>
    cases hs : params.xs_is_sparse <;>
    cases hb : params.xe_is_bounded <;>
    simp only [lweRoughCatalog, hnm, hs, hb] <;>
    exact ⟨rfl, rfl, rfl, rfl, rfl⟩

/-- Claim C10: for every catalog with distinct names and every raw
batch-result list, the LWE nested-loop assembly and the SIS dict
comprehension produce identical ResultMappings, including catalog order and
last-match-wins on duplicate raw keys. -/
theorem claim_C10_thm (algorithms : Dict Attack) (res_raw : Dict CostRecord)
    (hnd : (dKeys algorithms).Nodup) :
    assembleLWE algorithms res_raw = assembleSIS algorithms res_raw := by
  unfold assembleLWE assembleSIS
  exact assemble_fold_eq algorithms res_raw algorithms
    (fun kv hkv => dGet?_eq_of_mem_nodup algorithms kv hnd hkv) []

/-- A two-entry catalog used to exercise the assembly equivalence. -/
def dupDemoAlg : Dict Attack := [("a", att "f" 1), ("b", att "g" 2)]

/-- A raw result list with duplicate keys sharing the identity string of the
first catalog entry. -/
def dupDemoRaw : Dict CostRecord := [("f", cR 3), ("f", cR 4), ("g", cR 5)]

/-- Witness for C10 at a concrete input with duplicate raw keys. -/
theorem claim_C10_witness :
    (dKeys dupDemoAlg).Nodup ∧
    assembleLWE dupDemoAlg dupDemoRaw = assembleSIS dupDemoAlg dupDemoRaw :=
  ⟨by decide, claim_C10_thm dupDemoAlg dupDemoRaw (by decide)⟩

/-- Claim C8: for a fixed ParameterSet and model choice, running with jobs=1
and jobs=4 yields identical results in every mode of both families; the job
count never influences the returned mappings or the printed report. -/
theorem claim_C8_thm (envL : LWEFullEnv) (envR : LWERoughEnv) (params : LWEParams)
    (lattice : Attack) (deny_list : List String) (add_list : List (String × Attack))
    (catch_exceptions : Bool) :
    lweCall envL deny_list add_list 1 = lweCall envL deny_list add_list 4 ∧
    sisCall lattice deny_list add_list 1 catch_exceptions
      = sisCall lattice deny_list add_list 4 catch_exceptions ∧
    lweRough envR params 1 = lweRough envR params 4 ∧
    sisRough lattice 1 catch_exceptions = sisRough lattice 4 catch_exceptions :=
  ⟨rfl, rfl, rfl, rfl⟩

/-- Claim C3: whatever a full/LWE call returns, its ResultMapping equals the
mapping produced by result assembly before the dominance/reporting loop
runs; the dominance filter never adds, removes, or modifies an entry of the
returned mapping. -/
theorem claim_C3_thm (env : LWEFullEnv) (deny_list : List String)
    (add_list : List (String × Attack)) (jobs : ℕ) (res : Dict CostRecord)
    (lines : List (String × CostRecord))
    (h : lweCall env deny_list add_list jobs = Except.ok (res, lines)) :
    lweAssembled env deny_list add_list jobs = some res := by
  obtain ⟨alg1, raw, hd, hb, hres, _⟩ :=
    lweCall_ok_inv env deny_list add_list jobs res lines h
  unfold lweAssembled
  simp only [hd, hb]
  rw [hres]

/-- Witness for C3 at a concrete input. -/
theorem claim_C3_witness : lweAssembled envMin [] [] 1 = some [("usvp", cInf)] :=
  claim_C3_thm envMin [] [] 1 [("usvp", cInf)] [] rfl

/-- Claim C2 (amended): a deny-list name absent from the constructed catalog
is a fatal lookup failure in the full/LWE path, while the full/SIS path
silently ignores absent names and returns normally. -/
theorem claim_C2_thm :
    (∀ (env : LWEFullEnv) (deny_list : List String) (add_list : List (String × Attack))
       (jobs : ℕ), (∃ x, x ∈ deny_list ∧ dHasKey (lweFullCatalog env) x = false) →
       lweCall env deny_list add_list jobs = Except.error ()) ∧
    (∀ (lattice : Attack) (deny_list : List String) (add_list : List (String × Attack))
       (jobs : ℕ), isOkE (sisCall lattice deny_list add_list jobs true) = true) := by
  constructor
  · intro env deny_list add_list jobs h
    obtain ⟨x, hx, habs⟩ := h
    have habs2 : x ∉ dKeys (lweFullCatalog env) := by
      rw [dHasKey] at habs
      exact of_decide_eq_false habs
    unfold lweCall
    simp only [applyDenyLWE_absent deny_list (lweFullCatalog env) ⟨x, hx, habs2⟩]
  · intro lattice deny_list add_list jobs
    unfold sisCall
    obtain ⟨r, hr⟩ :=
      batchAux_true_ok
        (dValues (applyAdd (applyDenySIS (sisFullCatalog lattice) deny_list) add_list)) []
    simp only [batch_estimate, hr]
    rfl

/-- Counterexample to C2 as stated: a full/SIS call whose deny-list names an
entry absent from the catalog returns normally instead of failing. -/
theorem claim_C2_counterexample :
    sisCall (att "f_lat" 7) ["ghost"] [] 1 true
      = Except.ok ([("lattice", cR 7)], [("lattice", cR 7)]) := rfl

/-- Witness for C2 (amended) at concrete inputs of both families. -/
theorem claim_C2_witness :
    lweCall envMin ["ghost"] [] 1 = Except.error () ∧
    isOkE (sisCall attNone ["ghost"] [] 1 true) = true :=
  ⟨claim_C2_thm.1 envMin ["ghost"] [] 1 ⟨"ghost", by decide, by decide⟩,
   claim_C2_thm.2 attNone ["ghost"] [] 1⟩

/-- Full/LWE environment where only `dual_mitm_hybrid` succeeds, with a
finite cost. -/
def envC9 : LWEFullEnv :=
  { arora_gb_guess := attNone, coded_bkw := attNone, primal_usvp := attNone,
    primal_bdd := attNone, primal_bdd_hybrid := attNone,
    primal_bdd_mitm_hybrid := attNone, dual := attNone,
    dual_hybrid := attNone, dual_mitm_hybrid := att "f_dmh" 95 }

/-- Claim C9: denying `dual_hybrid` while `dual_mitm_hybrid` remains and
evaluates to a finite rop makes the reporting loop's unguarded sibling
lookup fail, so the call raises instead of returning the ResultMapping. -/
theorem claim_C9_thm :
    envC9.dual_mitm_hybrid.eval = some (cR 95) ∧
    lweCall envC9 ["dual_hybrid"] [] 1 = Except.error () :=
  ⟨rfl, rfl⟩

/-- Full/LWE environment where `bdd` succeeds with rop 100 and `bdd_hybrid`
with rop 120, everything else failing. -/
def envC1 : LWEFullEnv :=
  { arora_gb_guess := attNone, coded_bkw := attNone, primal_usvp := attNone,
    primal_bdd := att "f_bdd" 100, primal_bdd_hybrid := att "f_bddh" 120,
    primal_bdd_mitm_hybrid := attNone, dual := attNone,
    dual_hybrid := attNone, dual_mitm_hybrid := attNone }

/-- Claim C1, code evaluation at the failing input: with `bdd.rop = 100`
strictly below `bdd_hybrid.rop = 120`, the full/LWE report still prints the
`bdd_hybrid` line, because the dominance check tests the key `hybrid`
(lwe.py line 180), which never names the `bdd_hybrid` entry. -/
theorem claim_C1_code_eval :
    lweCall envC1 [] [] 1
      = Except.ok ([("bdd", cR 100), ("bdd_hybrid", cR 120)],
                   [("bdd", cR 100), ("bdd_hybrid", cR 120)]) ∧
    Rop.lt (cR 100).rop (cR 120).rop = true :=
  ⟨rfl, by decide⟩

/-- An entry of a duplicate-free mapping that is both infeasible and printed
with finite rop is contradictory. -/
theorem no_inf_entry_aux (res : Dict CostRecord) (k : String) (v w : CostRecord)
    (hnd : (dKeys res).Nodup) (hget : dGet? res k = some v) (hinf : v.rop = Rop.inf)
    (hmem : (k, w) ∈ res) (hwrop : w.rop ≠ Rop.inf) : False := by
  have hlk := dGet?_eq_of_mem_nodup res (k, w) hnd hmem
  rw [hget, Option.some_inj] at hlk
  have hvw : v = w := hlk
  exact hwrop (hvw ▸ hinf)

/-- Claim C4: an entry of the returned ResultMapping whose rop is +infinity
is never printed, in the rough and full modes of both the LWE and the
SIS/NTRU families, while remaining present in the returned mapping. -/
theorem claim_C4_thm :
    (∀ (env : LWERoughEnv) (params : LWEParams) (jobs : ℕ) (res : Dict CostRecord)
       (lines : List (String × CostRecord)) (k : String) (v : CostRecord),
       lweRough env params jobs = Except.ok (res, lines) →
       dGet? res k = some v → v.rop = Rop.inf →
       ∀ w, (k, w) ∉ lines) ∧
    (∀ (env : LWEFullEnv) (deny_list : List String) (add_list : List (String × Attack))
       (jobs : ℕ) (res : Dict CostRecord) (lines : List (String × CostRecord))
       (k : String) (v : CostRecord),
       lweCall env deny_list add_list jobs = Except.ok (res, lines) →
       dGet? res k = some v → v.rop = Rop.inf →
       ∀ w, (k, w) ∉ lines) ∧
    (∀ (lattice : Attack) (jobs : ℕ) (catch_exceptions : Bool) (res : Dict CostRecord)
       (lines : List (String × CostRecord)) (k : String) (v : CostRecord),
       sisRough lattice jobs catch_exceptions = Except.ok (res, lines) →
       dGet? res k = some v → v.rop = Rop.inf →
       ∀ w, (k, w) ∉ lines) ∧
    (∀ (lattice : Attack) (deny_list : List String) (add_list : List (String × Attack))
       (jobs : ℕ) (catch_exceptions : Bool) (res : Dict CostRecord)
       (lines : List (String × CostRecord)) (k : String) (v : CostRecord),
       sisCall lattice deny_list add_list jobs catch_exceptions = Except.ok (res, lines) →
       dGet? res k = some v → v.rop = Rop.inf →
       ∀ w, (k, w) ∉ lines) := by
  refine ⟨?_, ?_, ?_, ?_⟩
  · intro env params jobs res lines k v hrun hget hinf w hw
    obtain ⟨raw, _, hres, hlines⟩ := lweRough_ok_inv env params jobs res lines hrun
    have hnd : (dKeys res).Nodup := by rw [hres]; exact assembleLWE_nodup _ _
    rw [hlines] at hw
    obtain ⟨hmem, hwrop⟩ := lweRoughReport_mem res _ (k, w) hw
    exact no_inf_entry_aux res k v w hnd hget hinf hmem hwrop
  · intro env deny_list add_list jobs res lines k v hrun hget hinf w hw
    obtain ⟨alg1, raw, _, _, hres, hrep⟩ :=
      lweCall_ok_inv env deny_list add_list jobs res lines hrun
    have hnd : (dKeys res).Nodup := by rw [hres]; exact assembleLWE_nodup _ _
    obtain ⟨hmem, hwrop, _⟩ := lweReportAll_mem res _ lines hrep (k, w) hw
    exact no_inf_entry_aux res k v w hnd hget hinf hmem hwrop
  · intro lattice jobs ce res lines k v hrun hget hinf w hw
    obtain ⟨raw, _, _, hlines⟩ := sisRough_ok_inv lattice jobs ce res lines hrun
    rw [hlines] at hw
    obtain ⟨hlk, hwrop⟩ := sisReport_mem res _ (k, w) hw
    rw [hget, Option.some_inj] at hlk
    have hvw : v = w := hlk
    exact hwrop (hvw ▸ hinf)
  · intro lattice deny_list add_list jobs ce res lines k v hrun hget hinf w hw
    obtain ⟨raw, _, _, hlines⟩ :=
      sisCall_ok_inv lattice deny_list add_list jobs ce res lines hrun
    rw [hlines] at hw
    obtain ⟨hlk, hwrop⟩ := sisReport_mem res _ (k, w) hw
    rw [hget, Option.some_inj] at hlk
    have hvw : v = w := hlk
    exact hwrop (hvw ▸ hinf)

/-- Rough/LWE environment where uSVP returns an infeasible result and every
other callable fails. -/
def envRMin : LWERoughEnv :=
  { usvp := attInf, hybrid := attNone, dual_mitm_hybrid := attNone,
    dual_hybrid := attNone, arora_gb_guess := attNone, arora_gb_plain := attNone }

/-- A non-sparse, unbounded-noise ParameterSet with few samples. -/
def pMin : LWEParams := { n := 2, m := 1, xs_is_sparse := false, xe_is_bounded := false }

/-- Witness for C4 at concrete runs of all four modes, each holding an
infeasible entry that the report omits. -/
theorem claim_C4_witness :
    (("usvp", cInf) ∉ ([] : List (String × CostRecord))) ∧
    (("usvp", cInf) ∉ ([] : List (String × CostRecord))) ∧
    (("lattice", cInf) ∉ ([] : List (String × CostRecord))) ∧
    (("lattice", cInf) ∉ ([] : List (String × CostRecord))) :=
  ⟨claim_C4_thm.1 envRMin pMin 1 [("usvp", cInf)] [] "usvp" cInf rfl rfl rfl cInf,
   claim_C4_thm.2.1 envMin [] [] 1 [("usvp", cInf)] [] "usvp" cInf rfl rfl rfl cInf,
   claim_C4_thm.2.2.1 attInf 1 true [("lattice", cInf)] [] "lattice" cInf rfl rfl rfl cInf,
   claim_C4_thm.2.2.2 attInf [] [] 1 true [("lattice", cInf)] [] "lattice" cInf
     rfl rfl rfl cInf⟩

/-- Claim C6: in full/LWE mode, when the assembled mapping holds both
`dual_hybrid` and `dual_mitm_hybrid` with finite rop values and
`dual_hybrid` is strictly cheaper, the report omits the `dual_mitm_hybrid`
line while the returned mapping still contains the entry (the containment is
the hypothesis on the returned `res`). -/
theorem claim_C6_thm (env : LWEFullEnv) (deny_list : List String)
    (add_list : List (String × Attack)) (jobs : ℕ) (res : Dict CostRecord)
    (lines : List (String × CostRecord)) (dh dmh : CostRecord)
    (hrun : lweCall env deny_list add_list jobs = Except.ok (res, lines))
    (hdh : dGet? res "dual_hybrid" = some dh)
    (hdmh : dGet? res "dual_mitm_hybrid" = some dmh)
    (hdhfin : dh.rop ≠ Rop.inf) (hdmhfin : dmh.rop ≠ Rop.inf)
    (hlt : Rop.lt dh.rop dmh.rop = true) :
    ∀ w, ("dual_mitm_hybrid", w) ∉ lines := by
  obtain ⟨alg1, raw, _, _, hres, hrep⟩ :=
    lweCall_ok_inv env deny_list add_list jobs res lines hrun
  have hnd : (dKeys res).Nodup := by rw [hres]; exact assembleLWE_nodup _ _
  intro w hw
  obtain ⟨hmem, _, hdual⟩ :=
    lweReportAll_mem res _ lines hrep ("dual_mitm_hybrid", w) hw
  obtain ⟨b, hb, hbf⟩ := hdual rfl
  rw [hdh, Option.some_inj] at hb
  subst hb
  have hw2 := dGet?_eq_of_mem_nodup res ("dual_mitm_hybrid", w) hnd hmem
  rw [hdmh, Option.some_inj] at hw2
  subst hw2
  rw [hlt] at hbf
  simp at hbf

/-- Full/LWE environment where `dual_hybrid` succeeds with rop 90 and
`dual_mitm_hybrid` with rop 95, everything else failing. -/
def envC6 : LWEFullEnv :=
  { arora_gb_guess := attNone, coded_bkw := attNone, primal_usvp := attNone,
    primal_bdd := attNone, primal_bdd_hybrid := attNone,
    primal_bdd_mitm_hybrid := attNone, dual := attNone,
    dual_hybrid := att "f_dh" 90, dual_mitm_hybrid := att "f_dmh2" 95 }

/-- Witness for C6 at a concrete run with `dual_hybrid.rop = 90` and
`dual_mitm_hybrid.rop = 95`. -/
theorem claim_C6_witness :
    ("dual_mitm_hybrid", cR 95) ∉ [("dual_hybrid", cR 90)] :=
  claim_C6_thm envC6 [] [] 1
    [("dual_hybrid", cR 90), ("dual_mitm_hybrid", cR 95)]
    [("dual_hybrid", cR 90)] (cR 90) (cR 95)
    rfl rfl rfl (by decide) (by decide) (by decide) (cR 95)

/-- Claim C7: for every name X present in the default catalog, a full-mode
call with X on the deny-list and (X, f) on the add-list builds a catalog
with exactly one entry for X, bound to f, and the final ResultMapping's X
entry is f's own result, in both the LWE and the SIS/NTRU families. -/
theorem claim_C7_thm (envL : LWEFullEnv) (lattice : Attack) (X : String) (f : Attack)
    (c : CostRecord) (jobs : ℕ) (hf : f.eval = some c) :
    (dHasKey (lweFullCatalog envL) X = true →
      applyDenyLWE (lweFullCatalog envL) [X] ≠ none ∧
      (∀ alg1, applyDenyLWE (lweFullCatalog envL) [X] = some alg1 →
        (dKeys (applyAdd alg1 [(X, f)])).count X = 1 ∧
        dGet? (applyAdd alg1 [(X, f)]) X = some f ∧
        (∀ res lines, lweCall envL [X] [(X, f)] jobs = Except.ok (res, lines) →
          dGet? res X = some c))) ∧
    (dHasKey (sisFullCatalog lattice) X = true →
      (dKeys (applyAdd (applyDenySIS (sisFullCatalog lattice) [X]) [(X, f)])).count X = 1 ∧
      dGet? (applyAdd (applyDenySIS (sisFullCatalog lattice) [X]) [(X, f)]) X = some f ∧
      (∀ res lines catch_exceptions,
        sisCall lattice [X] [(X, f)] jobs catch_exceptions = Except.ok (res, lines) →
        dGet? res X = some c)) := by
  constructor
  · intro hX
    have hXmem : X ∈ dKeys (lweFullCatalog envL) := of_decide_eq_true hX
    have hcatnd : (dKeys (lweFullCatalog envL)).Nodup := by
      rw [dKeys_lweFullCatalog]
      decide
    constructor
    · intro hnone
      cases hdel : dDel (lweFullCatalog envL) X with
      | none => exact dDel_isSome_of_hasKey _ X hXmem hdel
      | some d2 =>
        rw [show applyDenyLWE (lweFullCatalog envL) [X] = some d2 from by
          simp [applyDenyLWE, hdel]] at hnone
        simp at hnone
    · intro alg1 halg
      have hdel : dDel (lweFullCatalog envL) X = some alg1 := by
        cases hd : dDel (lweFullCatalog envL) X with
        | none =>
          rw [show applyDenyLWE (lweFullCatalog envL) [X] = none from by
            simp [applyDenyLWE, hd]] at halg
          simp at halg
        | some d2 =>
          rw [show applyDenyLWE (lweFullCatalog envL) [X] = some d2 from by
            simp [applyDenyLWE, hd], Option.some_inj] at halg
          rw [← halg]
      have hX1 : X ∉ dKeys alg1 := dDel_not_key _ X alg1 hcatnd hdel
      obtain ⟨hcount, hget⟩ := applyAdd_single_keys alg1 X f hX1
      refine ⟨hcount, hget, ?_⟩
      intro res lines hrun
      obtain ⟨alg1b, raw, hd2, hb, hres, _⟩ :=
        lweCall_ok_inv envL [X] [(X, f)] jobs res lines hrun
      have halgb : alg1b = alg1 := by
        rw [show applyDenyLWE (lweFullCatalog envL) [X] = some alg1 from by
          simp [applyDenyLWE, hdel], Option.some_inj] at hd2
        exact hd2.symm
      rw [halgb] at hb hres
      have happ : applyAdd alg1 [(X, f)] = alg1 ++ [(X, f)] := by
        rw [applyAdd_single]
        exact dInsert_eq_append alg1 X f hX1
      rw [happ] at hb hres
      have hv : dValues (alg1 ++ [(X, f)]) = dValues alg1 ++ [f] := by simp [dValues]
      rw [hv] at hb
      obtain ⟨hraws, hrawnd⟩ := batch_last_get (dValues alg1) f c jobs true raw hf hb
      rw [hres]
      exact (assemble_append_get alg1 X f c raw hX1 hrawnd hraws).1
  · intro hX
    have hX1 : X ∉ dKeys (applyDenySIS (sisFullCatalog lattice) [X]) :=
      applyDenySIS_not_key _ [X] X (by simp)
    obtain ⟨hcount, hget⟩ := applyAdd_single_keys _ X f hX1
    refine ⟨hcount, hget, ?_⟩
    intro res lines catch_exceptions hrun
    obtain ⟨raw, hb, hres, _⟩ :=
      sisCall_ok_inv lattice [X] [(X, f)] jobs catch_exceptions res lines hrun
    have happ : applyAdd (applyDenySIS (sisFullCatalog lattice) [X]) [(X, f)]
        = applyDenySIS (sisFullCatalog lattice) [X] ++ [(X, f)] := by
      rw [applyAdd_single]
      exact dInsert_eq_append _ X f hX1
    rw [happ] at hb hres
    have hv : dValues (applyDenySIS (sisFullCatalog lattice) [X] ++ [(X, f)])
        = dValues (applyDenySIS (sisFullCatalog lattice) [X]) ++ [f] := by simp [dValues]
    rw [hv] at hb
    obtain ⟨hraws, hrawnd⟩ := batch_last_get _ f c jobs catch_exceptions raw hf hb
    rw [hres]
    exact (assemble_append_get _ X f c raw hX1 hrawnd hraws).2

/-- Full/LWE environment where every callable fails. -/
def envC7 : LWEFullEnv :=
  { arora_gb_guess := attNone, coded_bkw := attNone, primal_usvp := attNone,
    primal_bdd := attNone, primal_bdd_hybrid := attNone,
    primal_bdd_mitm_hybrid := attNone, dual := attNone,
    dual_hybrid := attNone, dual_mitm_hybrid := attNone }

/-- A replacement callable with a fresh identity string and finite cost. -/
def fNew : Attack := att "f_new" 42

/-- The full/LWE catalog of `envC7` after denying `usvp`. -/
def algC7 : Dict Attack :=
  [("arora-gb", attNone), ("bkw", attNone), ("bdd", attNone), ("bdd_hybrid", attNone),
   ("bdd_mitm_hybrid", attNone), ("dual", attNone), ("dual_hybrid", attNone),
   ("dual_mitm_hybrid", attNone)]

/-- Witness for C7: deny `usvp` and re-add it bound to a fresh callable in
full/LWE, and the same for `lattice` in full/SIS. -/
theorem claim_C7_witness :
    ((dKeys (applyAdd algC7 [("usvp", fNew)])).count "usvp" = 1 ∧
     dGet? (applyAdd algC7 [("usvp", fNew)]) "usvp" = some fNew ∧
     dGet? [("usvp", cR 42)] "usvp" = some (cR 42)) ∧
    ((dKeys (applyAdd (applyDenySIS (sisFullCatalog attNone) ["lattice"])
        [("lattice", fNew)])).count "lattice" = 1 ∧
     dGet? (applyAdd (applyDenySIS (sisFullCatalog attNone) ["lattice"])
        [("lattice", fNew)]) "lattice" = some fNew ∧
     dGet? [("lattice", cR 42)] "lattice" = some (cR 42)) := by
  have hL := (claim_C7_thm envC7 attNone "usvp" fNew (cR 42) 1 rfl).1 (by decide)
  have hL2 := hL.2 algC7 rfl
  have hS := (claim_C7_thm envC7 attNone "lattice" fNew (cR 42) 1 rfl).2 (by decide)
  exact ⟨⟨hL2.1, hL2.2.1, hL2.2.2 [("usvp", cR 42)] [("usvp", cR 42)] rfl⟩,
         ⟨hS.1, hS.2.1, hS.2.2 [("lattice", cR 42)] [("lattice", cR 42)] true rfl⟩⟩
